import Mathlib

/-!
Verification of the `mle` library (`src/mle/__init__.py`): a declarative
maximum-likelihood-estimation toolkit.  Python objects are embedded shallowly:

* `Variable` / `Parameter` model the leaf classes; Python object identity is
  modelled by the `id : Nat` field (two records with the same `id` stand for
  the same Python object, distinct objects carry distinct ids).  The symbolic
  handle `tvar` created by `T.vector(name)` / `T.scalar(name)` is identified
  with the owning object's `id`.
* `DTree`/`DForest` model the post-construction state of a `Distribution`
  node: the values (in insertion order) of its `var`, `param` and `dist`
  ordered dictionaries.
* `Model` models the concrete distribution classes `Normal`, `Uniform` and
  `Mix2` together with the registration performed by their constructors.
* Log-densities are evaluated elementwise (per dataset row); the value domain
  `RE` is the reals extended with a negative infinity, matching the `-inf`
  produced by the support mask `bound`.
-/

namespace MLE

/-- The `Variable` leaf class: a named, vector-valued symbolic input.
`id` models Python object identity. -/
structure Variable where
  id : Nat
  name : String
  label : String
deriving DecidableEq

/-- The `Parameter` leaf class: a named scalar to be fitted, with optional
(and, in this code base, never read) bounds.  `id` models object identity. -/
structure Parameter where
  id : Nat
  name : String
  label : String
  lower : Option ℝ
  upper : Option ℝ

/-! ### Identity-keyed deduplication

`get_vars`/`get_params` run the loop
`for par in ret: if par not in unique: unique.append(par)`.
`Variable`/`Parameter` define no `__eq__`, so `in` compares by object
identity; we model this by comparing the `id` key. -/

/-- `keyMem key l k` models the membership test `p in l` of the collection
loop, which compares by object identity (the `key` projection). -/
def keyMem {α : Type} (key : α → Nat) (l : List α) (k : Nat) : Bool :=
  l.any (fun q => key q = k)

/-- One iteration of `for par in ret: if par not in unique: unique.append(par)`. -/
def dedupStep {α : Type} (key : α → Nat) (unique : List α) (p : α) : List α :=
  if keyMem key unique (key p) then unique else unique ++ [p]

/-- The whole dedup loop of `get_vars`/`get_params`, starting from `unique = []`. -/
def dedupKey {α : Type} (key : α → Nat) (ret : List α) : List α :=
  ret.foldl (dedupStep key) []

/-- Specification-side dedup: keep the first occurrence of each identity,
skipping keys already in `seen`.  Used to characterise `dedupKey`. -/
def freshAfter {α : Type} (key : α → Nat) (seen : List α) : List α → List α
  | [] => []
  | p :: l =>
      if keyMem key seen (key p) then freshAfter key seen l
      else p :: freshAfter key (seen ++ [p]) l

/-! ### The distribution composition graph

A `DTree` node holds the values, in insertion order, of a `Distribution`'s
`var`, `param` and `dist` ordered dictionaries; `DForest` is the list of
child distributions. -/

mutual
inductive DTree : Type where
  | node (vars : List Variable) (params : List Parameter) (children : DForest) : DTree
inductive DForest : Type where
  | nil : DForest
  | cons (d : DTree) (ds : DForest) : DForest
end

mutual
/-- `Distribution.get_vars`: own variables, then each child's `get_vars`,
deduplicated by identity. -/
def DTree.get_vars : DTree → List Variable
  | .node vs _ cs => dedupKey Variable.id (vs ++ DForest.collect_vars cs)
/-- The loop `for dist in self.dist.values(): ret += dist.get_vars()`. -/
def DForest.collect_vars : DForest → List Variable
  | .nil => []
  | .cons d ds => d.get_vars ++ DForest.collect_vars ds
end

mutual
/-- `Distribution.get_params`: own parameters, then each child's
`get_params`, deduplicated by identity. -/
def DTree.get_params : DTree → List Parameter
  | .node _ ps cs => dedupKey Parameter.id (ps ++ DForest.collect_params cs)
/-- The loop `for dist in self.dist.values(): ret += dist.get_params()`. -/
def DForest.collect_params : DForest → List Parameter
  | .nil => []
  | .cons d ds => d.get_params ++ DForest.collect_params ds
end

mutual
/-- All variable registrations reachable from a node, in first-registration
depth-first order (own leaves first, children in registration order), with
no deduplication.  This is the specification-side traversal order. -/
def DTree.all_vars : DTree → List Variable
  | .node vs _ cs => vs ++ DForest.all_vars_f cs
def DForest.all_vars_f : DForest → List Variable
  | .nil => []
  | .cons d ds => d.all_vars ++ DForest.all_vars_f ds
end

mutual
/-- All parameter registrations reachable from a node, in first-registration
depth-first order, with no deduplication. -/
def DTree.all_params : DTree → List Parameter
  | .node _ ps cs => ps ++ DForest.all_params_f cs
def DForest.all_params_f : DForest → List Parameter
  | .nil => []
  | .cons d ds => d.all_params ++ DForest.all_params_f ds
end

/-! ### The elementwise value domain and the support mask

A log-density evaluates, elementwise, to a real number or to `-inf` (the
value substituted by the support mask and produced by `log 0`).  `RE` is
this domain. -/

/-- An elementwise log-density value: a finite real or negative infinity. -/
inductive RE : Type where
  | fin (r : ℝ) : RE
  | ninf : RE

/-- Elementwise `T.exp` on the value domain: `exp (-inf) = 0`. -/
noncomputable def rexp : RE → ℝ
  | .fin r => Real.exp r
  | .ninf => 0

/-- Elementwise `T.log`: the logarithm of a positive number, `-inf` at zero
(we also send negative arguments, which produce NaN in floating point and
are never exercised by the claims, to `ninf`). -/
noncomputable def rlog (x : ℝ) : RE :=
  if 0 < x then .fin (Real.log x) else .ninf

/-- Embed an elementwise value into `EReal` (used when negating the summed
log-likelihood, where `-(-inf) = +inf` must be representable). -/
noncomputable def RE.toEReal : RE → EReal
  | .fin r => (r : EReal)
  | .ninf => ⊥

/-- `alltrue(vals)`: starting from `ret = 1`, multiply in `1 * c` for each
elementwise 0/1-valued boolean condition `c`. -/
def alltrue (vals : List Bool) : Nat :=
  vals.foldl (fun ret c => ret * (1 * (if c then 1 else 0))) 1

/-- `bound(logp, *conditions) = T.switch(alltrue(conditions), logp, -inf)`,
elementwise; `T.switch` treats a nonzero scrutinee as true. -/
def bound (logp : RE) (conditions : List Bool) : RE :=
  if alltrue conditions ≠ 0 then logp else .ninf

/-- Specification-side mask (spec §4.3): `all(conditions) ? logp : -infinity`,
evaluated elementwise. -/
def masked_logp (logp : RE) (conditions : List Bool) : RE :=
  if conditions.all (fun c => c) then logp else .ninf

/-! ### The concrete distribution classes

`Model` is the tree of concrete distributions as built by the constructors
of `Normal`, `Uniform` and `Mix2`. -/

/-- A concrete distribution tree: `Normal(x, mu, sigma)`,
`Uniform(x, lower, upper)` or `Mix2(frac, dist1, dist2)`. -/
inductive Model : Type where
  | normal (x : Variable) (mu sigma : Parameter) : Model
  | uniform (x : Variable) (lower upper : Parameter) : Model
  | mix2 (frac : Parameter) (dist1 dist2 : Model) : Model

/-- `self.param[param.name] = param` on an `OrderedDict`, represented by its
value list in insertion order: assigning an existing key replaces the value
in place, a new key is appended. -/
def odInsert (m : List Parameter) (p : Parameter) : List Parameter :=
  if m.any (fun q => q.name = p.name) then
    m.map (fun q => if q.name = p.name then p else q)
  else m ++ [p]

/-- `Distribution._add_param(param, enforce_lower, enforce_upper)`: stores the
parameter in the node's ordered map.  The `enforce_lower`/`enforce_upper`
arguments are accepted but never read. -/
def addParam (st : List Parameter) (p : Parameter) (el eu : Option ℝ) : List Parameter :=
  odInsert st p

/-- The registration performed by each concrete constructor, producing the
node state (`var`/`param`/`dist` value lists).  `Normal.__init__` registers
`x`, then `mu`, then `sigma` (with `enforce_lower=0`); `Uniform.__init__`
registers `x`, `lower`, `upper`; `Mix2.__init__` registers `frac` and the two
children under the distinct keys `'dist1'`/`'dist2'`. -/
def Model.toTree : Model → DTree
  | .normal x mu sigma =>
      .node [x] (addParam (addParam [] mu none none) sigma (some 0) none) .nil
  | .uniform x lower upper =>
      .node [x] (addParam (addParam [] lower none none) upper none none) .nil
  | .mix2 frac d1 d2 =>
      .node [] (addParam [] frac none none) (.cons d1.toTree (.cons d2.toTree .nil))

/-- `get_vars` on the tree built by the constructors. -/
def Model.get_vars (m : Model) : List Variable := m.toTree.get_vars

/-- `get_params` on the tree built by the constructors. -/
def Model.get_params (m : Model) : List Parameter := m.toTree.get_params

/-- The elementwise log-density `logp()` of each concrete distribution,
evaluated under an assignment `env` of values to the symbolic leaves
(index = object id of the owning `Variable`/`Parameter`):
`Uniform`: `log(1/(upper-lower))` (no mask, `x` unused);
`Normal`: `bound(log(1/sqrt(2*pi*sigma**2) * exp(-0.5*(x-mu)**2/sigma**2)), sigma > 0)`;
`Mix2`: `bound(log(frac*exp(dist1.logp()) + (1-frac)*exp(dist2.logp())), frac > 0, frac < 1)`. -/
noncomputable def Model.logp : Model → (Nat → ℝ) → RE
  | .uniform _ lower upper, env =>
      rlog (1 / (env upper.id - env lower.id))
  | .normal x mu sigma, env =>
      bound (rlog (1 / Real.sqrt (2 * Real.pi * (env sigma.id) ^ 2) *
          Real.exp ((-0.5) * (env x.id - env mu.id) ^ 2 / (env sigma.id) ^ 2)))
        [decide (0 < env sigma.id)]
  | .mix2 frac d1 d2, env =>
      bound (rlog (env frac.id * rexp (d1.logp env) +
          (1 - env frac.id) * rexp (d2.logp env)))
        [decide (0 < env frac.id), decide (env frac.id < 1)]

/-- The object ids of the symbolic leaves read by `Model.logp` (every leaf
handle stored on the instance by its constructor). -/
def Model.leaf_ids : Model → List Nat
  | .normal x mu sigma => [x.id, mu.id, sigma.id]
  | .uniform x lower upper => [x.id, lower.id, upper.id]
  | .mix2 frac d1 d2 => frac.id :: (d1.leaf_ids ++ d2.leaf_ids)

/-- Well-formedness of a model: within each node the two registered
parameters carry distinct names (otherwise the second `OrderedDict` store
overwrites the first and the compiled function would lack an input). -/
def Model.wf : Model → Prop
  | .normal _ mu sigma => mu.name ≠ sigma.name
  | .uniform _ lower upper => lower.name ≠ upper.name
  | .mix2 _ d1 d2 => d1.wf ∧ d2.wf

/-! ### The compilation layer

`theano.function(vars + pars, expr)` produces a callable taking one value
per listed leaf, positionally; variables receive one vector (one entry per
dataset row), parameters one scalar.  `TArg n` is one such argument over `n`
rows; `bindEnv` is the positional binding of argument values to leaf ids. -/

/-- One argument of a compiled callable over `n` dataset rows. -/
inductive TArg (n : ℕ) : Type where
  | vec (v : Fin n → ℝ) : TArg n
  | scl (r : ℝ) : TArg n

/-- The elementwise value of an argument at row `i` (scalars broadcast). -/
def TArg.atRow {n : ℕ} (i : Fin n) : TArg n → ℝ
  | .vec v => v i
  | .scl r => r

/-- The scalar carried by a scalar argument (junk value `0` on vectors). -/
def TArg.sclVal {n : ℕ} : TArg n → ℝ
  | .vec _ => 0
  | .scl r => r

/-- `_get_vars_pars` followed by `vars + pars`: the leaf handles handed to
`theano.function`, i.e. the compiled callable's argument order — all
variables (in `get_vars` order) then all parameters (in `get_params`
order). -/
def Model.compile_args (m : Model) : List Nat :=
  m.get_vars.map Variable.id ++ m.get_params.map Parameter.id

/-- Positional binding of call values to leaf ids: the `k`-th listed leaf
receives the `k`-th value.  (An id not among the arguments is given the junk
value `scl 0`; `theano` would reject such a call.) -/
def bindEnv {n : ℕ} (args : List Nat) (vals : List (TArg n)) : Nat → TArg n := fun i =>
  match (args.zip vals).find? (fun av => av.1 == i) with
  | some av => av.2
  | none => .scl 0

/-- The elementwise environment at row `i` induced by an argument binding. -/
def rowEnv {n : ℕ} (e : Nat → TArg n) (i : Fin n) : Nat → ℝ := fun j => (e j).atRow i

/-- `logp_compiled`: `function(vars + pars, -T.sum(self.logp()))` — the
callable taking all variable values then all parameter values and returning
the negated sum, over dataset rows, of the root's elementwise `logp`. -/
noncomputable def Model.logp_compiled (m : Model) (n : ℕ) : List (TArg n) → EReal :=
  fun vals => - ∑ i : Fin n, (m.logp (rowEnv (bindEnv m.compile_args vals) i)).toEReal

/-- The negated summed log-likelihood as a real number (the finite chart in
which the gradient is taken; `EReal.toReal` sends `±inf` to the junk value
`0`). -/
noncomputable def Model.neg_sum_logp (m : Model) (n : ℕ) (e : Nat → TArg n) : ℝ :=
  (- ∑ i : Fin n, (m.logp (rowEnv e i)).toEReal).toReal

/-- `grad_compiled`: `function(vars + pars, T.grad(-T.sum(self.logp()), pars))`
— same argument signature as `logp_compiled`, returning one entry per
collected parameter: the derivative of the negated summed log-likelihood in
that parameter's coordinate alone (all other leaves, in particular all
variables, held fixed). -/
noncomputable def Model.grad_compiled (m : Model) (n : ℕ) : List (TArg n) → List ℝ :=
  fun vals =>
    (m.get_params.map Parameter.id).map (fun pid =>
      deriv
        (fun t : ℝ =>
          m.neg_sum_logp n (Function.update (bindEnv m.compile_args vals) pid (.scl t)))
        ((bindEnv m.compile_args vals pid).sclVal))

/-! ### The fit pipeline -/

/-- The two locally raised validation errors of `Distribution.fit`. -/
inductive FitError : Type where
  | missingVar (name : String) : FitError
  | missingInit (name : String) : FitError
deriving DecidableEq

/-- Observable expensive steps of a `fit` call, in program order. -/
inductive FitEvent : Type where
  | compiledLogp : FitEvent
  | compiledGrad : FitEvent
  | minimizerCalled : FitEvent
deriving DecidableEq

/-- `Distribution.fit(data, init)`, parametrised by the external minimizer
(`scipy.optimize.minimize`, modelled as an arbitrary function of the
objective closure, the gradient closure and the initial vector).  Mirrors the
source order: validate every collected variable against `data` (raising
`ValueError` at the first missing name), then every collected parameter
against `init`; only then compile the objective and the gradient, build the
closures fixing the data arguments, run the minimizer and zip the solution
vector back onto parameter names.  The second component is the trace of
expensive steps performed. -/
noncomputable def Model.fit {n : ℕ}
    (minimize : (List ℝ → EReal) → (List ℝ → List ℝ) → List ℝ → List ℝ)
    (m : Model) (data : String → Option (Fin n → ℝ)) (init : String → Option ℝ) :
    Except FitError (List (String × ℝ)) × List FitEvent :=
  match m.get_vars.find? (fun v => (data v.name).isNone) with
  | some v => (.error (.missingVar v.name), [])
  | none =>
    match m.get_params.find? (fun p => (init p.name).isNone) with
    | some p => (.error (.missingInit p.name), [])
    | none =>
      let data_args : List (TArg n) :=
        m.get_vars.map (fun v => .vec ((data v.name).getD (fun _ => 0)))
      let x0 : List ℝ := m.get_params.map (fun p => (init p.name).getD 0)
      let func : List ℝ → EReal := fun pars => m.logp_compiled n (data_args ++ pars.map .scl)
      let func_grad : List ℝ → List ℝ :=
        fun pars => m.grad_compiled n (data_args ++ pars.map .scl)
      let xres := minimize func func_grad x0
      (.ok ((m.get_params.map Parameter.name).zip xres),
        [.compiledLogp, .compiledGrad, .minimizerCalled])

/-! ### The compilation cache -/

/-- Modelled from the spec: the `memoize` module imported by the source
(`from memoize import memoize`) is not under `src/`.  Per spec §4.4 the
decorator caches the compiled artifact per `Distribution` instance, keyed by
the instance's identity, for the process lifetime.  `cache` maps instance
identity to artifact; `compileCount` counts invocations of the underlying
(expensive) compilation. -/
structure MemoState (α : Type) where
  cache : List (Nat × α)
  compileCount : Nat

/-- Modelled from the spec: one call of a memoized compilation method on the
instance with identity `self`: a cache hit returns the stored artifact and
performs no compilation; a miss compiles once, counts it and stores the
artifact under `self`. -/
def memoCall {α : Type} (compute : Nat → α) (self : Nat) (s : MemoState α) :
    α × MemoState α :=
  match s.cache.find? (fun e => e.1 == self) with
  | some e => (e.2, s)
  | none => (compute self, ⟨s.cache ++ [(self, compute self)], s.compileCount + 1⟩)

/-! ### Dynamic typing of constructor defaults -/

/-- A dynamically-typed Python value passed as a parameter argument: either a
plain number (as the constructor defaults `mu=0`, `sigma=1`, `lower=0`,
`upper=1` are) or an actual `Parameter` object. -/
inductive PyVal : Type where
  | int (k : Int) : PyVal
  | obj (p : Parameter) : PyVal

/-- The dynamic error raised by attribute access on a non-object. -/
inductive PyError : Type where
  | attributeError (attr : String) : PyError
deriving DecidableEq

/-- `_add_param` on a dynamically-typed argument: it unconditionally
evaluates `param.name` (for the store `self.param[param.name] = param`),
which raises `AttributeError` unless the argument is a `Parameter` object. -/
def addParamDyn (st : List Parameter) (v : PyVal) : Except PyError (List Parameter) :=
  match v with
  | .obj p => .ok (odInsert st p)
  | .int _ => .error (.attributeError "name")

/-- `Normal.__init__(x, mu, sigma)` under dynamic typing: register `x`, then
`_add_param(mu)`, then `_add_param(sigma, enforce_lower=0)`; the first raised
error aborts construction. -/
def normalInitDyn (x : Variable) (mu sigma : PyVal) : Except PyError DTree :=
  match addParamDyn [] mu with
  | .error e => .error e
  | .ok ps1 =>
      match addParamDyn ps1 sigma with
      | .error e => .error e
      | .ok ps2 => .ok (.node [x] ps2 .nil)

/-- `Uniform.__init__(x, lower, upper)` under dynamic typing. -/
def uniformInitDyn (x : Variable) (lower upper : PyVal) : Except PyError DTree :=
  match addParamDyn [] lower with
  | .error e => .error e
  | .ok ps1 =>
      match addParamDyn ps1 upper with
      | .error e => .error e
      | .ok ps2 => .ok (.node [x] ps2 .nil)

/-! ### Equality up to parameter bounds (for the noninterference claim) -/

/-- Two `Parameter` objects that may differ only in their `lower`/`upper`
fields. -/
def Parameter.sameCore (p q : Parameter) : Prop :=
  p.id = q.id ∧ p.name = q.name ∧ p.label = q.label

/-- Two models that are identical except that corresponding `Parameter`
objects may differ in their `lower`/`upper` fields. -/
def Model.eqUpToBounds : Model → Model → Prop
  | .normal x mu sigma, .normal x' mu' sigma' =>
      x = x' ∧ mu.sameCore mu' ∧ sigma.sameCore sigma'
  | .uniform x lower upper, .uniform x' lower' upper' =>
      x = x' ∧ lower.sameCore lower' ∧ upper.sameCore upper'
  | .mix2 frac d1 d2, .mix2 frac' d1' d2' =>
      frac.sameCore frac' ∧ d1.eqUpToBounds d1' ∧ d2.eqUpToBounds d2'
  | _, _ => False

mutual
/-- Lifting of bounds-agnostic equality to node states: equal variables,
pointwise `sameCore` parameters, related children. -/
def treeRel : DTree → DTree → Prop
  | .node vs ps cs, .node vs' ps' cs' =>
      vs = vs' ∧ List.Forall₂ Parameter.sameCore ps ps' ∧ forestRel cs cs'
/-- Pointwise lifting of `treeRel` to child lists. -/
def forestRel : DForest → DForest → Prop
  | .nil, .nil => True
  | .cons d ds, .cons d' ds' => treeRel d d' ∧ forestRel ds ds'
  | _, _ => False
end

/-! ## Lemmas about identity-keyed deduplication -/

theorem keyMem_append {α : Type} (key : α → Nat) (s : List α) (p : α) (k : Nat) :
    keyMem key (s ++ [p]) k = (keyMem key s k || decide (key p = k)) := by
  simp [keyMem, List.any_append]

theorem foldl_dedupStep_eq {α : Type} (key : α → Nat) :
    ∀ (l acc : List α), List.foldl (dedupStep key) acc l = acc ++ freshAfter key acc l := by
  intro l
  induction l with
  | nil => intro acc; simp [freshAfter]
  | cons p l ih =>
      intro acc
      by_cases h : keyMem key acc (key p) = true
      · have hs : dedupStep key acc p = acc := by simp [dedupStep, h]
        simp only [List.foldl_cons, hs, freshAfter, h, if_pos]
        exact ih acc
      · have hs : dedupStep key acc p = acc ++ [p] := by simp [dedupStep, h]
        simp only [List.foldl_cons, hs, freshAfter, h, if_neg, Bool.false_eq_true,
          not_false_iff]
        rw [ih (acc ++ [p])]
        simp [List.append_assoc]

theorem freshAfter_freshAfter {α : Type} (key : α → Nat) :
    ∀ (l s t : List α), (∀ k, keyMem key s k = true → keyMem key t k = true) →
      freshAfter key t (freshAfter key s l) = freshAfter key t l := by
  intro l
  induction l with
  | nil => intro s t _; simp [freshAfter]
  | cons p l ih =>
      intro s t hst
      by_cases hs : keyMem key s (key p) = true
      · have ht := hst (key p) hs
        simp only [freshAfter, hs, if_pos, ht]
        exact ih s t hst
      · by_cases ht : keyMem key t (key p) = true
        · simp only [freshAfter, hs, if_neg, Bool.false_eq_true, not_false_iff, ht, if_pos]
          apply ih (s ++ [p]) t
          intro k hk
          rw [keyMem_append] at hk
          rcases Bool.or_eq_true_iff.mp hk with hk | hk
          · exact hst k hk
          · have : key p = k := of_decide_eq_true hk
            exact this ▸ ht
        · simp only [freshAfter, hs, ht, if_neg, Bool.false_eq_true, not_false_iff,
            List.cons.injEq, true_and]
          apply ih (s ++ [p]) (t ++ [p])
          intro k hk
          rw [keyMem_append] at hk ⊢
          rcases Bool.or_eq_true_iff.mp hk with hk | hk
          · exact Bool.or_eq_true_iff.mpr (Or.inl (hst k hk))
          · exact Bool.or_eq_true_iff.mpr (Or.inr hk)

theorem dedupKey_eq_freshAfter {α : Type} (key : α → Nat) (l : List α) :
    dedupKey key l = freshAfter key [] l := by
  rw [dedupKey, foldl_dedupStep_eq]
  simp

theorem foldl_dedupStep_dedupKey {α : Type} (key : α → Nat) (l acc : List α) :
    List.foldl (dedupStep key) acc (dedupKey key l) = List.foldl (dedupStep key) acc l := by
  rw [dedupKey_eq_freshAfter, foldl_dedupStep_eq, foldl_dedupStep_eq,
    freshAfter_freshAfter key l [] acc]
  intro k hk
  simp [keyMem] at hk

theorem freshAfter_nodup_and_avoid {α : Type} (key : α → Nat) :
    ∀ (l s : List α),
      ((freshAfter key s l).map key).Nodup
        ∧ ∀ k, keyMem key s k = true → k ∉ (freshAfter key s l).map key := by
  intro l
  induction l with
  | nil => intro s; simp [freshAfter]
  | cons p l ih =>
      intro s
      by_cases h : keyMem key s (key p) = true
      · simpa [freshAfter, h] using ih s
      · obtain ⟨ihn, ihm⟩ := ih (s ++ [p])
        have hmem : keyMem key (s ++ [p]) (key p) = true := by
          rw [keyMem_append]; simp
        constructor
        · simp only [freshAfter, h, if_neg, Bool.false_eq_true, not_false_iff,
            List.map_cons, List.nodup_cons]
          exact ⟨ihm (key p) hmem, ihn⟩
        · intro k hk
          simp only [freshAfter, h, if_neg, Bool.false_eq_true, not_false_iff,
            List.map_cons, List.mem_cons, not_or]
          constructor
          · intro hkp
            rw [hkp] at hk
            exact h hk
          · apply ihm k
            rw [keyMem_append]
            exact Bool.or_eq_true_iff.mpr (Or.inl hk)

theorem freshAfter_subset {α : Type} (key : α → Nat) :
    ∀ (l s : List α) (v : α), v ∈ freshAfter key s l → v ∈ l := by
  intro l
  induction l with
  | nil => intro s v hv; simp [freshAfter] at hv
  | cons p l ih =>
      intro s v hv
      by_cases h : keyMem key s (key p) = true
      · simp only [freshAfter, h, if_pos] at hv
        exact List.mem_cons_of_mem _ (ih s v hv)
      · simp only [freshAfter, h, if_neg, Bool.false_eq_true, not_false_iff,
          List.mem_cons] at hv
        rcases hv with hv | hv
        · exact hv ▸ List.mem_cons_self _ _
        · exact List.mem_cons_of_mem _ (ih (s ++ [p]) v hv)

theorem freshAfter_covers {α : Type} (key : α → Nat) :
    ∀ (l s : List α) (v : α), v ∈ l →
      keyMem key s (key v) = true ∨ ∃ w ∈ freshAfter key s l, key w = key v := by
  intro l
  induction l with
  | nil => intro s v hv; simp at hv
  | cons p l ih =>
      intro s v hv
      by_cases h : keyMem key s (key p) = true
      · rcases List.mem_cons.mp hv with hv | hv
        · exact Or.inl (hv ▸ h)
        · rcases ih s v hv with hc | ⟨w, hw, hwk⟩
          · exact Or.inl hc
          · refine Or.inr ⟨w, ?_, hwk⟩
            simp only [freshAfter, h, if_pos]
            exact hw
      · rcases List.mem_cons.mp hv with hv | hv
        · refine Or.inr ⟨p, ?_, by rw [hv]⟩
          simp [freshAfter, h]
        · rcases ih (s ++ [p]) v hv with hc | ⟨w, hw, hwk⟩
          · rw [keyMem_append] at hc
            rcases Bool.or_eq_true_iff.mp hc with hc | hc
            · exact Or.inl hc
            · refine Or.inr ⟨p, ?_, of_decide_eq_true hc⟩
              simp [freshAfter, h]
          · refine Or.inr ⟨w, ?_, hwk⟩
            simp only [freshAfter, h, if_neg, Bool.false_eq_true, not_false_iff,
              List.mem_cons]
            exact Or.inr hw

theorem dedupKey_nodup {α : Type} (key : α → Nat) (l : List α) :
    ((dedupKey key l).map key).Nodup := by
  rw [dedupKey_eq_freshAfter]
  exact (freshAfter_nodup_and_avoid key l []).1

theorem dedupKey_subset {α : Type} (key : α → Nat) (l : List α) (v : α)
    (hv : v ∈ dedupKey key l) : v ∈ l := by
  rw [dedupKey_eq_freshAfter] at hv
  exact freshAfter_subset key l [] v hv

theorem dedupKey_covers {α : Type} (key : α → Nat) (l : List α) (v : α) (hv : v ∈ l) :
    ∃ w ∈ dedupKey key l, key w = key v := by
  rw [dedupKey_eq_freshAfter]
  rcases freshAfter_covers key l [] v hv with hc | hw
  · simp [keyMem] at hc
  · exact hw

/-! ## The collection traversal equals the deduplicated depth-first order -/

mutual
theorem DTree.fold_vars_eq : ∀ (d : DTree) (acc : List Variable),
    List.foldl (dedupStep Variable.id) acc d.get_vars
      = List.foldl (dedupStep Variable.id) acc d.all_vars
  | .node vs ps cs, acc => by
      show List.foldl _ acc (dedupKey Variable.id (vs ++ DForest.collect_vars cs))
        = List.foldl _ acc (vs ++ DForest.all_vars_f cs)
      rw [foldl_dedupStep_dedupKey, List.foldl_append, List.foldl_append,
        DForest.collect_vars_fold_eq cs]
theorem DForest.collect_vars_fold_eq : ∀ (cs : DForest) (acc : List Variable),
    List.foldl (dedupStep Variable.id) acc cs.collect_vars
      = List.foldl (dedupStep Variable.id) acc cs.all_vars_f
  | .nil, _ => rfl
  | .cons d ds, acc => by
      show List.foldl _ acc (d.get_vars ++ DForest.collect_vars ds)
        = List.foldl _ acc (d.all_vars ++ DForest.all_vars_f ds)
      rw [List.foldl_append, List.foldl_append, DTree.fold_vars_eq d acc,
        DForest.collect_vars_fold_eq ds]
end

mutual
theorem DTree.fold_params_eq : ∀ (d : DTree) (acc : List Parameter),
    List.foldl (dedupStep Parameter.id) acc d.get_params
      = List.foldl (dedupStep Parameter.id) acc d.all_params
  | .node vs ps cs, acc => by
      show List.foldl _ acc (dedupKey Parameter.id (ps ++ DForest.collect_params cs))
        = List.foldl _ acc (ps ++ DForest.all_params_f cs)
      rw [foldl_dedupStep_dedupKey, List.foldl_append, List.foldl_append,
        DForest.collect_params_fold_eq cs]
theorem DForest.collect_params_fold_eq : ∀ (cs : DForest) (acc : List Parameter),
    List.foldl (dedupStep Parameter.id) acc cs.collect_params
      = List.foldl (dedupStep Parameter.id) acc cs.all_params_f
  | .nil, _ => rfl
  | .cons d ds, acc => by
      show List.foldl _ acc (d.get_params ++ DForest.collect_params ds)
        = List.foldl _ acc (d.all_params ++ DForest.all_params_f ds)
      rw [List.foldl_append, List.foldl_append, DTree.fold_params_eq d acc,
        DForest.collect_params_fold_eq ds]
end

theorem DTree.get_vars_eq_dedup (d : DTree) :
    d.get_vars = dedupKey Variable.id d.all_vars := by
  match d with
  | .node vs ps cs =>
      show dedupKey Variable.id (vs ++ DForest.collect_vars cs)
        = dedupKey Variable.id (vs ++ DForest.all_vars_f cs)
      rw [dedupKey, dedupKey, List.foldl_append, List.foldl_append,
        DForest.collect_vars_fold_eq cs]

theorem DTree.get_params_eq_dedup (d : DTree) :
    d.get_params = dedupKey Parameter.id d.all_params := by
  match d with
  | .node vs ps cs =>
      show dedupKey Parameter.id (ps ++ DForest.collect_params cs)
        = dedupKey Parameter.id (ps ++ DForest.all_params_f cs)
      rw [dedupKey, dedupKey, List.foldl_append, List.foldl_append,
        DForest.collect_params_fold_eq cs]

/-- C1: for every Distribution tree, `get_vars()` and `get_params()` return
the reachable `Variable`/`Parameter` objects deduplicated by object identity
in first-registration depth-first order: each equals the first-occurrence
identity-dedup of the depth-first registration list (a node's own leaves
before its children's, children in registration order); the returned ids are
pairwise distinct (each object exactly once, objects with equal names but
distinct identities both kept); every returned object is reachable, and
every reachable object is represented by identity.  Repeated calls return
the same list because the traversal is a pure function of the immutable
tree. -/
theorem claim_C1 (d : DTree) :
    (d.get_vars = dedupKey Variable.id d.all_vars
      ∧ (d.get_vars.map Variable.id).Nodup
      ∧ (∀ v ∈ d.get_vars, v ∈ d.all_vars)
      ∧ (∀ v ∈ d.all_vars, ∃ w ∈ d.get_vars, w.id = v.id))
    ∧ (d.get_params = dedupKey Parameter.id d.all_params
      ∧ (d.get_params.map Parameter.id).Nodup
      ∧ (∀ p ∈ d.get_params, p ∈ d.all_params)
      ∧ (∀ p ∈ d.all_params, ∃ w ∈ d.get_params, w.id = p.id)) := by
  refine ⟨⟨d.get_vars_eq_dedup, ?_, ?_, ?_⟩, ⟨d.get_params_eq_dedup, ?_, ?_, ?_⟩⟩
  · rw [d.get_vars_eq_dedup]; exact dedupKey_nodup _ _
  · intro v hv
    rw [d.get_vars_eq_dedup] at hv
    exact dedupKey_subset _ _ _ hv
  · intro v hv
    rw [d.get_vars_eq_dedup]
    exact dedupKey_covers _ _ _ hv
  · rw [d.get_params_eq_dedup]; exact dedupKey_nodup _ _
  · intro p hp
    rw [d.get_params_eq_dedup] at hp
    exact dedupKey_subset _ _ _ hp
  · intro p hp
    rw [d.get_params_eq_dedup]
    exact dedupKey_covers _ _ _ hp

/-! ## The multiplicative boolean mask -/

theorem foldl_alltrue_step (cs : List Bool) :
    ∀ a : ℕ, List.foldl (fun ret c => ret * (1 * (if c then 1 else 0))) a cs
      = if cs.all (fun c => c) then a else 0 := by
  induction cs with
  | nil => intro a; simp
  | cons c cs ih =>
      intro a
      rw [List.foldl_cons]
      cases c with
      | true =>
          rw [show a * (1 * (if true then 1 else 0)) = a by norm_num, ih a,
            show ((true :: cs).all fun c => c) = (cs.all fun c => c) by
              simp [List.all_cons]]
      | false =>
          rw [show a * (1 * (if false then 1 else 0)) = 0 by norm_num, ih 0,
            show ((false :: cs).all fun c => c) = false by simp [List.all_cons]]
          simp

theorem bound_eq_masked (logp : RE) (conditions : List Bool) :
    bound logp conditions = masked_logp logp conditions := by
  unfold bound masked_logp alltrue
  rw [foldl_alltrue_step]
  by_cases h : conditions.all (fun c => c) = true
  · simp [h]
  · simp [h]

theorem bound_of_all_true (logp : RE) (conditions : List Bool)
    (h : conditions.all (fun c => c) = true) : bound logp conditions = logp := by
  rw [bound_eq_masked, masked_logp, if_pos h]

theorem bound_of_not_all_true (logp : RE) (conditions : List Bool)
    (h : ¬ conditions.all (fun c => c) = true) : bound logp conditions = .ninf := by
  rw [bound_eq_masked, masked_logp, if_neg h]

/-- C2: `bound(logp, conditions...)`, implemented by multiplying the
elementwise 0/1-valued conditions together (`alltrue`) and switching on the
product, equals the elementwise conditional `all(conditions) ? logp : -inf`:
the log-density where every condition holds, negative infinity where at
least one is false. -/
theorem claim_C2 (logp : RE) (conditions : List Bool) :
    bound logp conditions = masked_logp logp conditions :=
  bound_eq_masked logp conditions

/-! ## The concrete log-densities -/

theorem mix2_logp_eq (frac : Parameter) (d1 d2 : Model) (env : Nat → ℝ) :
    Model.logp (.mix2 frac d1 d2) env
      = bound (rlog (env frac.id * rexp (d1.logp env) +
          (1 - env frac.id) * rexp (d2.logp env)))
        [decide (0 < env frac.id), decide (env frac.id < 1)] := rfl

/-- C3: `Mix2.logp()` equals `log(frac*exp(dist1.logp()) +
(1-frac)*exp(dist2.logp()))` elementwise when `0 < frac < 1`, and equals
negative infinity — regardless of the component log-densities — whenever
`frac <= 0` or `frac >= 1`. -/
theorem claim_C3 (frac : Parameter) (d1 d2 : Model) (env : Nat → ℝ) :
    (0 < env frac.id ∧ env frac.id < 1 →
      Model.logp (.mix2 frac d1 d2) env
        = rlog (env frac.id * rexp (d1.logp env) +
            (1 - env frac.id) * rexp (d2.logp env)))
    ∧ (env frac.id ≤ 0 ∨ 1 ≤ env frac.id →
      Model.logp (.mix2 frac d1 d2) env = .ninf) := by
  constructor
  · rintro ⟨h0, h1⟩
    rw [mix2_logp_eq]
    apply bound_of_all_true
    simp [h0, h1]
  · intro h
    rw [mix2_logp_eq]
    apply bound_of_not_all_true
    rcases h with h | h
    · simp [not_lt.mpr h]
    · simp [not_lt.mpr h]

/-- Witness for C3 at a mixing fraction set outside `(0,1)` (`frac = 2`):
the composite log-likelihood is negative infinity regardless of the
component densities. -/
theorem claim_C3_witness :
    Model.logp
        (.mix2 ⟨0, "f", "f", none, none⟩
          (.uniform ⟨1, "x", "x"⟩ ⟨2, "l", "l", none, none⟩ ⟨3, "u", "u", none, none⟩)
          (.uniform ⟨1, "x", "x"⟩ ⟨2, "l", "l", none, none⟩ ⟨3, "u", "u", none, none⟩))
        (fun _ => 2)
      = .ninf :=
  (claim_C3 _ _ _ _).2 (Or.inr (by norm_num))

theorem normal_logp_eq (x : Variable) (mu sigma : Parameter) (env : Nat → ℝ) :
    Model.logp (.normal x mu sigma) env
      = bound (rlog (1 / Real.sqrt (2 * Real.pi * (env sigma.id) ^ 2) *
          Real.exp ((-0.5) * (env x.id - env mu.id) ^ 2 / (env sigma.id) ^ 2)))
        [decide (0 < env sigma.id)] := rfl

/-- C4: for `sigma > 0`, `Normal.logp()` — the log of the product of the two
density factors — equals the sum-of-logs form
`log(1/sqrt(2*pi*sigma^2)) - 0.5*(x-mu)^2/sigma^2` elementwise; it equals
negative infinity when `sigma <= 0`; and at `mu = 0`, `sigma = 1`, `x = 0`
it equals `-0.5*log(2*pi)`. -/
theorem claim_C4 (x : Variable) (mu sigma : Parameter) (env : Nat → ℝ) :
    (0 < env sigma.id →
      Model.logp (.normal x mu sigma) env
        = .fin (Real.log (1 / Real.sqrt (2 * Real.pi * (env sigma.id) ^ 2))
            - 0.5 * (env x.id - env mu.id) ^ 2 / (env sigma.id) ^ 2))
    ∧ (env sigma.id ≤ 0 → Model.logp (.normal x mu sigma) env = .ninf)
    ∧ (env x.id = 0 → env mu.id = 0 → env sigma.id = 1 →
      Model.logp (.normal x mu sigma) env = .fin (-(0.5) * Real.log (2 * Real.pi))) := by
  have main : ∀ h : 0 < env sigma.id,
      Model.logp (.normal x mu sigma) env
        = .fin (Real.log (1 / Real.sqrt (2 * Real.pi * (env sigma.id) ^ 2))
            - 0.5 * (env x.id - env mu.id) ^ 2 / (env sigma.id) ^ 2) := by
    intro h
    rw [normal_logp_eq, bound_of_all_true _ _ (by simp [h])]
    have hbase : (0 : ℝ) < 2 * Real.pi * (env sigma.id) ^ 2 := by positivity
    have ha : (0 : ℝ) < 1 / Real.sqrt (2 * Real.pi * (env sigma.id) ^ 2) := by
      have := Real.sqrt_pos.mpr hbase
      positivity
    have harg : (0 : ℝ) < 1 / Real.sqrt (2 * Real.pi * (env sigma.id) ^ 2) *
        Real.exp ((-0.5) * (env x.id - env mu.id) ^ 2 / (env sigma.id) ^ 2) :=
      mul_pos ha (Real.exp_pos _)
    rw [rlog, if_pos harg, Real.log_mul (ne_of_gt ha) (Real.exp_ne_zero _), Real.log_exp]
    congr 1
    ring
  refine ⟨main, ?_, ?_⟩
  · intro h
    rw [normal_logp_eq]
    apply bound_of_not_all_true
    simp [not_lt.mpr h]
  · intro hx hm hs
    rw [main (by rw [hs]; norm_num), hx, hm, hs]
    congr 1
    rw [show (2 * Real.pi * (1 : ℝ) ^ 2) = 2 * Real.pi by ring, one_div, Real.log_inv,
      Real.log_sqrt (by positivity : (0 : ℝ) ≤ 2 * Real.pi)]
    ring

/-- Witness for C4: a `Normal` with `mu = 0`, `sigma = 1` evaluated at
`x = 0` has log-density `-0.5*log(2*pi)`. -/
theorem claim_C4_witness :
    Model.logp
        (.normal ⟨0, "x", "x"⟩ ⟨1, "mu", "mu", none, none⟩ ⟨2, "sigma", "sigma", none, none⟩)
        (fun j => if j = 2 then 1 else 0)
      = .fin (-(0.5) * Real.log (2 * Real.pi)) :=
  (claim_C4 _ _ _ _).2.2 (by norm_num) (by norm_num) (by norm_num)

/-- C6: `Uniform.logp()` equals `log(1/(upper-lower))` and does not read the
variable `x` at all — two environments that agree on `lower` and `upper` but
assign arbitrary (e.g. out-of-support) values to `x` receive the same
log-density, which is finite whenever `lower < upper`. -/
theorem claim_C6 (x : Variable) (lower upper : Parameter) (env env' : Nat → ℝ) :
    Model.logp (.uniform x lower upper) env = rlog (1 / (env upper.id - env lower.id))
    ∧ (env lower.id = env' lower.id → env upper.id = env' upper.id →
      Model.logp (.uniform x lower upper) env = Model.logp (.uniform x lower upper) env')
    ∧ (env lower.id < env upper.id →
      ∃ r : ℝ, Model.logp (.uniform x lower upper) env = .fin r) := by
  refine ⟨rfl, ?_, ?_⟩
  · intro h1 h2
    show rlog (1 / (env upper.id - env lower.id)) = rlog (1 / (env' upper.id - env' lower.id))
    rw [h1, h2]
  · intro h
    have harg : (0 : ℝ) < 1 / (env upper.id - env lower.id) :=
      one_div_pos.mpr (sub_pos.mpr h)
    exact ⟨Real.log (1 / (env upper.id - env lower.id)),
      by show rlog _ = _; rw [rlog, if_pos harg]⟩

/-- Witness for C6: with `lower = 0`, `upper = 1`, the log-density at
`x = 5` (outside the support) equals the log-density at `x = 0.5` (inside),
and it is finite. -/
theorem claim_C6_witness :
    Model.logp (.uniform ⟨0, "x", "x"⟩ ⟨1, "l", "l", none, none⟩ ⟨2, "u", "u", none, none⟩)
        (fun j => if j = 0 then 5 else if j = 1 then 0 else 1)
      = Model.logp (.uniform ⟨0, "x", "x"⟩ ⟨1, "l", "l", none, none⟩ ⟨2, "u", "u", none, none⟩)
        (fun j => if j = 0 then 0.5 else if j = 1 then 0 else 1)
    ∧ ∃ r : ℝ,
      Model.logp (.uniform ⟨0, "x", "x"⟩ ⟨1, "l", "l", none, none⟩ ⟨2, "u", "u", none, none⟩)
          (fun j => if j = 0 then 5 else if j = 1 then 0 else 1)
        = .fin r :=
  ⟨(claim_C6 ⟨0, "x", "x"⟩ ⟨1, "l", "l", none, none⟩ ⟨2, "u", "u", none, none⟩
      (fun j => if j = 0 then 5 else if j = 1 then 0 else 1)
      (fun j => if j = 0 then 0.5 else if j = 1 then 0 else 1)).2.1
      (by norm_num) (by norm_num),
    (claim_C6 ⟨0, "x", "x"⟩ ⟨1, "l", "l", none, none⟩ ⟨2, "u", "u", none, none⟩
      (fun j => if j = 0 then 5 else if j = 1 then 0 else 1)
      (fun j => if j = 0 then 0.5 else if j = 1 then 0 else 1)).2.2
      (by norm_num)⟩

/-! ## Dynamic typing of the constructor defaults -/

/-- C10: constructing `Normal` or `Uniform` while relying on the numeric
constructor defaults (`mu=0`, `sigma=1`, `lower=0`, `upper=1`) always raises
an attribute error, because `_add_param` unconditionally reads `param.name`;
conversely a construction that succeeds must have received `Parameter`
objects for both parameter arguments. -/
theorem claim_C10 :
    (∀ x : Variable, normalInitDyn x (.int 0) (.int 1) = .error (.attributeError "name"))
    ∧ (∀ x : Variable, uniformInitDyn x (.int 0) (.int 1) = .error (.attributeError "name"))
    ∧ (∀ (x : Variable) (mu sigma : PyVal) (t : DTree),
        normalInitDyn x mu sigma = .ok t → (∃ p, mu = .obj p) ∧ (∃ q, sigma = .obj q))
    ∧ (∀ (x : Variable) (lower upper : PyVal) (t : DTree),
        uniformInitDyn x lower upper = .ok t →
          (∃ p, lower = .obj p) ∧ (∃ q, upper = .obj q)) := by
  refine ⟨fun _ => rfl, fun _ => rfl, ?_, ?_⟩
  · intro x mu sigma t h
    cases mu with
    | int k => exact Except.noConfusion h
    | obj p =>
        cases sigma with
        | int k => exact Except.noConfusion h
        | obj q => exact ⟨⟨p, rfl⟩, ⟨q, rfl⟩⟩
  · intro x lower upper t h
    cases lower with
    | int k => exact Except.noConfusion h
    | obj p =>
        cases upper with
        | int k => exact Except.noConfusion h
        | obj q => exact ⟨⟨p, rfl⟩, ⟨q, rfl⟩⟩

/-- Witness for C10: a successful `Normal` construction out of two actual
`Parameter` objects, to which the success direction applies. -/
theorem claim_C10_witness :
    (∃ p, PyVal.obj ⟨1, "mu", "mu", none, none⟩ = PyVal.obj p)
    ∧ (∃ q, PyVal.obj ⟨2, "sigma", "sigma", none, none⟩ = PyVal.obj q) :=
  claim_C10.2.2.1 ⟨0, "x", "x"⟩ (.obj ⟨1, "mu", "mu", none, none⟩)
    (.obj ⟨2, "sigma", "sigma", none, none⟩)
    (.node [⟨0, "x", "x"⟩] [⟨1, "mu", "mu", none, none⟩, ⟨2, "sigma", "sigma", none, none⟩] .nil)
    rfl

/-! ## The compilation cache -/

theorem find_append_of_none {β : Type} (p : β → Bool) (l1 l2 : List β)
    (h : l1.find? p = none) : (l1 ++ l2).find? p = l2.find? p := by
  rw [List.find?_append, h, Option.none_or]

/-- C8: compilation happens at most once per instance: on a fresh instance
the first memoized call compiles (the compile count increases by one) and
returns the compiled artifact; any later call on the same instance — e.g.
from a second `fit()` — returns the cached artifact and leaves the cache
state, in particular the compile count, unchanged; and the cache is keyed by
instance identity, so a different uncached instance still triggers its own
compilation. -/
theorem claim_C8 {α : Type} (compute : Nat → α) (self : Nat) (s : MemoState α) :
    (s.cache.find? (fun e => e.1 == self) = none →
      (memoCall compute self s).1 = compute self
        ∧ (memoCall compute self s).2.compileCount = s.compileCount + 1)
    ∧ memoCall compute self (memoCall compute self s).2
        = ((memoCall compute self s).1, (memoCall compute self s).2)
    ∧ (∀ other, s.cache.find? (fun e => e.1 == other) = none → other ≠ self →
        (memoCall compute other (memoCall compute self s).2).2.compileCount
          = (memoCall compute self s).2.compileCount + 1) := by
  refine ⟨?_, ?_, ?_⟩
  · intro h
    simp [memoCall, h]
  · cases hc : s.cache.find? (fun e => e.1 == self) with
    | some entry => simp [memoCall, hc]
    | none =>
        have hstep : (memoCall compute self s).2.cache
            = s.cache ++ [(self, compute self)] := by
          simp [memoCall, hc]
        have hfind : (memoCall compute self s).2.cache.find? (fun e => e.1 == self)
            = some (self, compute self) := by
          rw [hstep, find_append_of_none _ _ _ hc]
          simp
        have hval : (memoCall compute self s).1 = compute self := by
          simp [memoCall, hc]
        rw [show memoCall compute self (memoCall compute self s).2
            = ((self, compute self).2, (memoCall compute self s).2) by
          rw [memoCall, hfind], hval]
  · intro other hother hne
    have hfind : (memoCall compute self s).2.cache.find? (fun e => e.1 == other)
        = none := by
      cases hc : s.cache.find? (fun e => e.1 == self) with
      | some entry => simp [memoCall, hc, hother]
      | none =>
          have hstep : (memoCall compute self s).2.cache
              = s.cache ++ [(self, compute self)] := by
            simp [memoCall, hc]
          rw [hstep, find_append_of_none _ _ _ hother]
          simp [Ne.symm hne]
    rw [show memoCall compute other (memoCall compute self s).2
        = (compute other, ⟨(memoCall compute self s).2.cache ++ [(other, compute other)],
            (memoCall compute self s).2.compileCount + 1⟩) by
      rw [memoCall, hfind]]

/-- Witness for C8: on an empty cache, the first call on instance `0`
compiles (count `0 + 1`), a second call on instance `0` returns the same
artifact without changing the state, and a first call on the distinct
instance `1` compiles again. -/
theorem claim_C8_witness :
    (memoCall (fun _ => 7) 0 (MemoState.mk ([] : List (Nat × Nat)) 0)).1 = 7
    ∧ (memoCall (fun _ => 7) 0 (MemoState.mk ([] : List (Nat × Nat)) 0)).2.compileCount
        = 0 + 1
    ∧ memoCall (fun _ => 7) 0 (memoCall (fun _ => 7) 0 (MemoState.mk ([] : List (Nat × Nat)) 0)).2
        = ((memoCall (fun _ => 7) 0 (MemoState.mk ([] : List (Nat × Nat)) 0)).1,
            (memoCall (fun _ => 7) 0 (MemoState.mk ([] : List (Nat × Nat)) 0)).2)
    ∧ (memoCall (fun _ => 7) 1 (memoCall (fun _ => 7) 0 (MemoState.mk ([] : List (Nat × Nat)) 0)).2).2.compileCount
        = (memoCall (fun _ => 7) 0 (MemoState.mk ([] : List (Nat × Nat)) 0)).2.compileCount + 1 :=
  have h := claim_C8 (fun _ => 7) 0 (MemoState.mk ([] : List (Nat × Nat)) 0)
  ⟨(h.1 rfl).1, (h.1 rfl).2, h.2.1, h.2.2 1 rfl (by decide)⟩

/-! ## Fit validation -/

/-- C7 (amended): if some collected `Variable`'s name is absent from `data`,
`fit` raises a missing-variable error naming such a variable; if every
collected `Variable`'s name is present in `data` and some collected
`Parameter`'s name is absent from `init`, `fit` raises a
missing-initial-value error naming such a parameter (the variable check runs
first, so a missing variable takes precedence over a missing parameter); in
both cases the error is raised before any compilation or minimizer
invocation (the trace of expensive steps is empty). -/
theorem claim_C7 {n : ℕ}
    (minimize : (List ℝ → EReal) → (List ℝ → List ℝ) → List ℝ → List ℝ)
    (m : Model) (data : String → Option (Fin n → ℝ)) (init : String → Option ℝ) :
    ((∃ v ∈ m.get_vars, data v.name = none) →
      ∃ v ∈ m.get_vars, data v.name = none
        ∧ Model.fit minimize m data init = (.error (.missingVar v.name), []))
    ∧ ((∀ v ∈ m.get_vars, data v.name ≠ none) →
      (∃ p ∈ m.get_params, init p.name = none) →
      ∃ p ∈ m.get_params, init p.name = none
        ∧ Model.fit minimize m data init = (.error (.missingInit p.name), []))
    ∧ (∀ err, (Model.fit minimize m data init).1 = .error err →
      (Model.fit minimize m data init).2 = []) := by
  refine ⟨?_, ?_, ?_⟩
  · intro h
    cases hf : m.get_vars.find? (fun v => (data v.name).isNone) with
    | none =>
        exfalso
        obtain ⟨v, hv, hnone⟩ := h
        have hp := List.find?_eq_none.mp hf v hv
        simp [hnone] at hp
    | some v₀ =>
        have hmem := List.mem_of_find?_eq_some hf
        have hnone : data v₀.name = none := by
          have hpred := List.find?_some hf
          simpa [Option.isNone_iff_eq_none] using hpred
        refine ⟨v₀, hmem, hnone, ?_⟩
        unfold Model.fit
        rw [hf]
  · intro hall h
    have hfv : m.get_vars.find? (fun v => (data v.name).isNone) = none := by
      rw [List.find?_eq_none]
      intro v hv
      simpa [Option.isNone_iff_eq_none] using hall v hv
    cases hf : m.get_params.find? (fun p => (init p.name).isNone) with
    | none =>
        exfalso
        obtain ⟨p, hp, hnone⟩ := h
        have hc := List.find?_eq_none.mp hf p hp
        simp [hnone] at hc
    | some p₀ =>
        have hmem := List.mem_of_find?_eq_some hf
        have hnone : init p₀.name = none := by
          have hpred := List.find?_some hf
          simpa [Option.isNone_iff_eq_none] using hpred
        refine ⟨p₀, hmem, hnone, ?_⟩
        unfold Model.fit
        rw [hfv, hf]
  · intro err herr
    cases hfv : m.get_vars.find? (fun v => (data v.name).isNone) with
    | some v =>
        show (Model.fit minimize m data init).2 = []
        unfold Model.fit
        rw [hfv]
    | none =>
        cases hfp : m.get_params.find? (fun p => (init p.name).isNone) with
        | some p =>
            show (Model.fit minimize m data init).2 = []
            unfold Model.fit
            rw [hfv, hfp]
        | none =>
            exfalso
            unfold Model.fit at herr
            rw [hfv, hfp] at herr
            simp at herr

/-- Counterexample to C7 as stated: in a model whose dataset is missing the
variable `x` and whose `init` is missing the parameters `mu` and `sigma`,
the antecedent of the claim's second conditional holds (a collected
parameter's name is absent from `init`), yet `fit` raises the
missing-variable error for `x`, which is not a missing-initial-value error
naming either parameter: the variable check precedes the parameter check. -/
theorem claim_C7_counterexample :
    (⟨1, "mu", "mu", none, none⟩ : Parameter)
        ∈ (Model.normal ⟨0, "x", "x"⟩ ⟨1, "mu", "mu", none, none⟩
            ⟨2, "sigma", "sigma", none, none⟩).get_params
    ∧ (fun _ : String => (none : Option ℝ)) "mu" = none
    ∧ @Model.fit 1 (fun _ _ x0 => x0)
        (Model.normal ⟨0, "x", "x"⟩ ⟨1, "mu", "mu", none, none⟩
          ⟨2, "sigma", "sigma", none, none⟩)
        (fun _ => none) (fun _ => none)
        = (.error (.missingVar "x"), [])
    ∧ FitError.missingVar "x" ≠ FitError.missingInit "mu"
    ∧ FitError.missingVar "x" ≠ FitError.missingInit "sigma" := by
  refine ⟨?_, rfl, ?_, by decide, by decide⟩
  · rw [show (Model.normal ⟨0, "x", "x"⟩ ⟨1, "mu", "mu", none, none⟩
        ⟨2, "sigma", "sigma", none, none⟩).get_params
      = [⟨1, "mu", "mu", none, none⟩, ⟨2, "sigma", "sigma", none, none⟩] from rfl]
    exact List.mem_cons_self _ _
  · unfold Model.fit
    rw [show (Model.normal ⟨0, "x", "x"⟩ ⟨1, "mu", "mu", none, none⟩
          ⟨2, "sigma", "sigma", none, none⟩).get_vars.find?
        (fun v => ((fun _ : String => (none : Option (Fin 1 → ℝ))) v.name).isNone)
      = some ⟨0, "x", "x"⟩ from rfl]

/-- Witness for the amended C7: on a dataset missing `x`, `fit` errors with
the missing-variable error and an empty trace; on a complete dataset with an
empty `init`, `fit` errors with a missing-initial-value error and an empty
trace. -/
theorem claim_C7_witness :
    (∃ v ∈ (Model.normal ⟨0, "x", "x"⟩ ⟨1, "mu", "mu", none, none⟩
        ⟨2, "sigma", "sigma", none, none⟩).get_vars,
      (fun _ : String => (none : Option (Fin 1 → ℝ))) v.name = none
        ∧ @Model.fit 1 (fun _ _ x0 => x0)
            (Model.normal ⟨0, "x", "x"⟩ ⟨1, "mu", "mu", none, none⟩
              ⟨2, "sigma", "sigma", none, none⟩)
            (fun _ => none) (fun _ => none)
          = (.error (.missingVar v.name), []))
    ∧ (∃ p ∈ (Model.normal ⟨0, "x", "x"⟩ ⟨1, "mu", "mu", none, none⟩
        ⟨2, "sigma", "sigma", none, none⟩).get_params,
      (fun _ : String => (none : Option ℝ)) p.name = none
        ∧ @Model.fit 1 (fun _ _ x0 => x0)
            (Model.normal ⟨0, "x", "x"⟩ ⟨1, "mu", "mu", none, none⟩
              ⟨2, "sigma", "sigma", none, none⟩)
            (fun _ => some (fun _ => 0)) (fun _ => none)
          = (.error (.missingInit p.name), [])) :=
  ⟨(claim_C7 (fun _ _ x0 => x0)
      (Model.normal ⟨0, "x", "x"⟩ ⟨1, "mu", "mu", none, none⟩
        ⟨2, "sigma", "sigma", none, none⟩)
      (fun _ => (none : Option (Fin 1 → ℝ))) (fun _ => (none : Option ℝ))).1
      ⟨⟨0, "x", "x"⟩, by
        rw [show (Model.normal ⟨0, "x", "x"⟩ ⟨1, "mu", "mu", none, none⟩
              ⟨2, "sigma", "sigma", none, none⟩).get_vars
            = [⟨0, "x", "x"⟩] from rfl]
        exact List.mem_singleton.mpr rfl, rfl⟩,
    (claim_C7 (fun _ _ x0 => x0)
      (Model.normal ⟨0, "x", "x"⟩ ⟨1, "mu", "mu", none, none⟩
        ⟨2, "sigma", "sigma", none, none⟩)
      (fun _ => (some (fun _ => 0) : Option (Fin 1 → ℝ))) (fun _ => (none : Option ℝ))).2.1
      (fun v _ => by simp)
      ⟨⟨1, "mu", "mu", none, none⟩, by
        rw [show (Model.normal ⟨0, "x", "x"⟩ ⟨1, "mu", "mu", none, none⟩
              ⟨2, "sigma", "sigma", none, none⟩).get_params
            = [⟨1, "mu", "mu", none, none⟩, ⟨2, "sigma", "sigma", none, none⟩] from rfl]
        exact List.mem_cons_self _ _, rfl⟩⟩

/-! ## Noninterference of parameter bounds -/

theorem keyMem_rel {acc acc' : List Parameter}
    (h : List.Forall₂ Parameter.sameCore acc acc') (k : Nat) :
    keyMem Parameter.id acc k = keyMem Parameter.id acc' k := by
  induction h with
  | nil => rfl
  | @cons a b l1 l2 hab htl ih =>
      have h1 : (decide (Parameter.id a = k)) = (decide (Parameter.id b = k)) := by
        rw [hab.1]
      have h2 := ih
      simp only [keyMem, List.any_cons] at h2 ⊢
      rw [h1, h2]

theorem foldl_dedupStep_rel :
    ∀ {l l' : List Parameter}, List.Forall₂ Parameter.sameCore l l' →
      ∀ {acc acc' : List Parameter}, List.Forall₂ Parameter.sameCore acc acc' →
      List.Forall₂ Parameter.sameCore
        (List.foldl (dedupStep Parameter.id) acc l)
        (List.foldl (dedupStep Parameter.id) acc' l') := by
  intro l l' h
  induction h with
  | nil => intro acc acc' hacc; exact hacc
  | @cons a b l1 l2 hab htl ih =>
      intro acc acc' hacc
      rw [List.foldl_cons, List.foldl_cons]
      apply ih
      have haux : keyMem Parameter.id acc (Parameter.id a)
          = keyMem Parameter.id acc' (Parameter.id b) := by
        rw [hab.1]
        exact keyMem_rel hacc _
      unfold dedupStep
      rw [haux]
      by_cases hk : keyMem Parameter.id acc' (Parameter.id b) = true
      · rw [if_pos hk, if_pos hk]; exact hacc
      · rw [if_neg hk, if_neg hk]
        exact List.rel_append hacc (List.Forall₂.cons hab List.Forall₂.nil)

theorem dedupKey_rel {l l' : List Parameter}
    (h : List.Forall₂ Parameter.sameCore l l') :
    List.Forall₂ Parameter.sameCore (dedupKey Parameter.id l) (dedupKey Parameter.id l') :=
  foldl_dedupStep_rel h List.Forall₂.nil

theorem odInsert_rel {st st' : List Parameter} {p p' : Parameter}
    (hst : List.Forall₂ Parameter.sameCore st st') (hp : p.sameCore p') :
    List.Forall₂ Parameter.sameCore (odInsert st p) (odInsert st' p') := by
  have hany : st.any (fun q => q.name = p.name) = st'.any (fun q => q.name = p'.name) := by
    induction hst with
    | nil => rfl
    | @cons a b l1 l2 hab htl ih =>
        simp only [List.any_cons]
        rw [hab.2.1, hp.2.1]
        congr 1
        simpa [hp.2.1] using ih
  unfold odInsert
  rw [hany]
  by_cases hmem : st'.any (fun q => q.name = p'.name) = true
  · rw [if_pos hmem, if_pos hmem]
    clear hany hmem
    induction hst with
    | nil => exact List.Forall₂.nil
    | @cons a b l1 l2 hab htl ih =>
        simp only [List.map_cons]
        refine List.Forall₂.cons ?_ ih
        rw [hab.2.1, hp.2.1]
        by_cases hb : b.name = p'.name
        · rw [if_pos hb, if_pos hb]; exact hp
        · rw [if_neg hb, if_neg hb]; exact hab
  · rw [if_neg hmem, if_neg hmem]
    exact List.rel_append hst (List.Forall₂.cons hp List.Forall₂.nil)

mutual
theorem treeRel_get_vars : ∀ (d d' : DTree), treeRel d d' → d.get_vars = d'.get_vars
  | .node vs ps cs, .node vs' ps' cs', h => by
      obtain ⟨hv, _, hc⟩ := h
      show dedupKey Variable.id (vs ++ DForest.collect_vars cs)
        = dedupKey Variable.id (vs' ++ DForest.collect_vars cs')
      rw [hv, forestRel_collect_vars cs cs' hc]
theorem forestRel_collect_vars :
    ∀ (cs cs' : DForest), forestRel cs cs' → cs.collect_vars = cs'.collect_vars
  | .nil, .nil, _ => rfl
  | .cons d ds, .cons d' ds', h => by
      obtain ⟨h1, h2⟩ := h
      show d.get_vars ++ ds.collect_vars = d'.get_vars ++ ds'.collect_vars
      rw [treeRel_get_vars d d' h1, forestRel_collect_vars ds ds' h2]
  | .nil, .cons _ _, h => h.elim
  | .cons _ _, .nil, h => h.elim
end

mutual
theorem treeRel_get_params : ∀ (d d' : DTree), treeRel d d' →
    List.Forall₂ Parameter.sameCore d.get_params d'.get_params
  | .node vs ps cs, .node vs' ps' cs', h => by
      obtain ⟨_, hp, hc⟩ := h
      show List.Forall₂ Parameter.sameCore
        (dedupKey Parameter.id (ps ++ DForest.collect_params cs))
        (dedupKey Parameter.id (ps' ++ DForest.collect_params cs'))
      exact dedupKey_rel (List.rel_append hp (forestRel_collect_params cs cs' hc))
theorem forestRel_collect_params :
    ∀ (cs cs' : DForest), forestRel cs cs' →
      List.Forall₂ Parameter.sameCore cs.collect_params cs'.collect_params
  | .nil, .nil, _ => List.Forall₂.nil
  | .cons d ds, .cons d' ds', h => by
      obtain ⟨h1, h2⟩ := h
      show List.Forall₂ Parameter.sameCore (d.get_params ++ ds.collect_params)
        (d'.get_params ++ ds'.collect_params)
      exact List.rel_append (treeRel_get_params d d' h1) (forestRel_collect_params ds ds' h2)
  | .nil, .cons _ _, h => h.elim
  | .cons _ _, .nil, h => h.elim
end

theorem eqUpToBounds_treeRel (m m' : Model) (h : m.eqUpToBounds m') :
    treeRel m.toTree m'.toTree := by
  induction m generalizing m' with
  | normal x mu sigma =>
      cases m' with
      | normal x' mu' sigma' =>
          obtain ⟨hx, hmu, hsig⟩ := h
          subst hx
          exact ⟨rfl, odInsert_rel (odInsert_rel List.Forall₂.nil hmu) hsig, trivial⟩
      | uniform x' lower' upper' => exact h.elim
      | mix2 frac' d1' d2' => exact h.elim
  | uniform x lower upper =>
      cases m' with
      | normal x' mu' sigma' => exact h.elim
      | uniform x' lower' upper' =>
          obtain ⟨hx, hlo, hup⟩ := h
          subst hx
          exact ⟨rfl, odInsert_rel (odInsert_rel List.Forall₂.nil hlo) hup, trivial⟩
      | mix2 frac' d1' d2' => exact h.elim
  | mix2 frac d1 d2 ih1 ih2 =>
      cases m' with
      | normal x' mu' sigma' => exact h.elim
      | uniform x' lower' upper' => exact h.elim
      | mix2 frac' d1' d2' =>
          obtain ⟨hf, h1, h2⟩ := h
          exact ⟨rfl, odInsert_rel List.Forall₂.nil hf, ih1 d1' h1, ih2 d2' h2, trivial⟩

theorem eqUpToBounds_logp (m m' : Model) (h : m.eqUpToBounds m') :
    ∀ env, m.logp env = m'.logp env := by
  induction m generalizing m' with
  | normal x mu sigma =>
      cases m' with
      | normal x' mu' sigma' =>
          obtain ⟨hx, hmu, hsig⟩ := h
          subst hx
          intro env
          simp only [Model.logp]
          rw [hmu.1, hsig.1]
      | uniform x' lower' upper' => exact h.elim
      | mix2 frac' d1' d2' => exact h.elim
  | uniform x lower upper =>
      cases m' with
      | normal x' mu' sigma' => exact h.elim
      | uniform x' lower' upper' =>
          obtain ⟨hx, hlo, hup⟩ := h
          intro env
          simp only [Model.logp]
          rw [hlo.1, hup.1]
      | mix2 frac' d1' d2' => exact h.elim
  | mix2 frac d1 d2 ih1 ih2 =>
      cases m' with
      | normal x' mu' sigma' => exact h.elim
      | uniform x' lower' upper' => exact h.elim
      | mix2 frac' d1' d2' =>
          obtain ⟨hf, h1, h2⟩ := h
          intro env
          simp only [Model.logp]
          rw [hf.1, ih1 d1' h1 env, ih2 d2' h2 env]

theorem map_rel_of_fn {γ : Type} (f : Parameter → γ)
    (hf : ∀ p q, Parameter.sameCore p q → f p = f q)
    {l l' : List Parameter} (h : List.Forall₂ Parameter.sameCore l l') :
    l.map f = l'.map f := by
  induction h with
  | nil => rfl
  | @cons a b l1 l2 hab htl ih =>
      simp only [List.map_cons]
      rw [hf a b hab, ih]

theorem find?_rel_of_pred (pred : Parameter → Bool)
    (hpred : ∀ p q, Parameter.sameCore p q → pred p = pred q)
    {l l' : List Parameter} (h : List.Forall₂ Parameter.sameCore l l') :
    (l.find? pred = none ∧ l'.find? pred = none)
    ∨ ∃ p q, l.find? pred = some p ∧ l'.find? pred = some q ∧ p.sameCore q := by
  induction h with
  | nil => exact Or.inl ⟨rfl, rfl⟩
  | @cons a b l1 l2 hab htl ih =>
      by_cases ha : pred a = true
      · have hb : pred b = true := by rw [← hpred a b hab]; exact ha
        exact Or.inr ⟨a, b, List.find?_cons_of_pos _ ha, List.find?_cons_of_pos _ hb, hab⟩
      · have hb : ¬ pred b = true := by rw [← hpred a b hab]; exact ha
        rw [List.find?_cons_of_neg _ ha, List.find?_cons_of_neg _ hb]
        exact ih

/-- C9: the `lower`/`upper` fields of `Parameter` and the
`enforce_lower`/`enforce_upper` arguments of `_add_param` are never read by
the likelihood assembler, the compilation layer or `fit`: two models that
are identical except for those bounds have identical `logp`, identical
collected variables and parameter names, identical compiled objective and
gradient values, and identical `fit` behaviour under any minimizer; and
`_add_param` returns the same state whatever enforcement arguments it is
passed. -/
theorem claim_C9 (m m' : Model) (h : m.eqUpToBounds m') :
    (∀ env, m.logp env = m'.logp env)
    ∧ m.get_vars = m'.get_vars
    ∧ m.get_params.map Parameter.name = m'.get_params.map Parameter.name
    ∧ (∀ (n : ℕ) (vals : List (TArg n)), m.logp_compiled n vals = m'.logp_compiled n vals)
    ∧ (∀ (n : ℕ) (vals : List (TArg n)), m.grad_compiled n vals = m'.grad_compiled n vals)
    ∧ (∀ (n : ℕ) (minimize : (List ℝ → EReal) → (List ℝ → List ℝ) → List ℝ → List ℝ)
        (data : String → Option (Fin n → ℝ)) (init : String → Option ℝ),
        Model.fit minimize m data init = Model.fit minimize m' data init)
    ∧ (∀ (st : List Parameter) (p : Parameter) (el eu el' eu' : Option ℝ),
        addParam st p el eu = addParam st p el' eu') := by
  have hrel := eqUpToBounds_treeRel m m' h
  have hlogp := eqUpToBounds_logp m m' h
  have hgv : m.get_vars = m'.get_vars := treeRel_get_vars _ _ hrel
  have hgp : List.Forall₂ Parameter.sameCore m.get_params m'.get_params :=
    treeRel_get_params _ _ hrel
  have hids : m.get_params.map Parameter.id = m'.get_params.map Parameter.id :=
    map_rel_of_fn Parameter.id (fun _ _ hpq => hpq.1) hgp
  have hnames : m.get_params.map Parameter.name = m'.get_params.map Parameter.name :=
    map_rel_of_fn Parameter.name (fun _ _ hpq => hpq.2.1) hgp
  have hargs : m.compile_args = m'.compile_args := by
    unfold Model.compile_args
    rw [hgv, hids]
  have hsum : ∀ (n : ℕ) (e : Nat → TArg n),
      (∑ i : Fin n, (m.logp (rowEnv e i)).toEReal)
        = ∑ i : Fin n, (m'.logp (rowEnv e i)).toEReal := fun n e =>
    Finset.sum_congr rfl (fun i _ => by rw [hlogp])
  have hlc : ∀ (n : ℕ) (vals : List (TArg n)),
      m.logp_compiled n vals = m'.logp_compiled n vals := by
    intro n vals
    unfold Model.logp_compiled
    rw [hargs, hsum]
  have hns : ∀ (n : ℕ) (e : Nat → TArg n), m.neg_sum_logp n e = m'.neg_sum_logp n e := by
    intro n e
    unfold Model.neg_sum_logp
    rw [hsum]
  have hgc : ∀ (n : ℕ) (vals : List (TArg n)),
      m.grad_compiled n vals = m'.grad_compiled n vals := by
    intro n vals
    unfold Model.grad_compiled
    rw [hargs, hids]
    congr 1
    funext pid
    congr 1
    funext t
    rw [hns]
  refine ⟨hlogp, hgv, hnames, hlc, hgc, ?_, fun _ _ _ _ _ _ => rfl⟩
  intro n minimize data init
  unfold Model.fit
  rw [hgv]
  cases hfv : List.find? (fun v => (data v.name).isNone) m'.get_vars with
  | some v => rfl
  | none =>
      rcases find?_rel_of_pred (fun p => (init p.name).isNone)
          (fun p q hpq =>
            show (init p.name).isNone = (init q.name).isNone by rw [hpq.2.1])
          hgp with ⟨hn1, hn2⟩ | ⟨p, q, hp, hq, hpq⟩
      · rw [hn1, hn2]
        have hx0 : m.get_params.map (fun p => (init p.name).getD 0)
            = m'.get_params.map (fun p => (init p.name).getD 0) :=
          map_rel_of_fn _
            (fun p q hpq =>
              show (init p.name).getD 0 = (init q.name).getD 0 by rw [hpq.2.1])
            hgp
        simp only [hx0, hnames, hlc, hgc]
      · rw [hp, hq]
        show ((Except.error (FitError.missingInit p.name) :
            Except FitError (List (String × ℝ))), ([] : List FitEvent))
          = ((Except.error (FitError.missingInit q.name) :
            Except FitError (List (String × ℝ))), ([] : List FitEvent))
        rw [hpq.2.1]

/-- Witness for C9: a `Normal` whose parameters carry no bounds against the
same `Normal` with `mu` bounded to `[0, 1]` and `sigma` bounded below: same
log-density, same collected variables, same collected parameter names. -/
theorem claim_C9_witness :
    (∀ env, Model.logp (.normal ⟨0, "x", "x"⟩ ⟨1, "mu", "mu", none, none⟩
        ⟨2, "sigma", "sigma", none, none⟩) env
      = Model.logp (.normal ⟨0, "x", "x"⟩ ⟨1, "mu", "mu", some 0, some 1⟩
        ⟨2, "sigma", "sigma", some 0, none⟩) env)
    ∧ (Model.normal ⟨0, "x", "x"⟩ ⟨1, "mu", "mu", none, none⟩
        ⟨2, "sigma", "sigma", none, none⟩).get_vars
      = (Model.normal ⟨0, "x", "x"⟩ ⟨1, "mu", "mu", some 0, some 1⟩
        ⟨2, "sigma", "sigma", some 0, none⟩).get_vars
    ∧ (Model.normal ⟨0, "x", "x"⟩ ⟨1, "mu", "mu", none, none⟩
        ⟨2, "sigma", "sigma", none, none⟩).get_params.map Parameter.name
      = (Model.normal ⟨0, "x", "x"⟩ ⟨1, "mu", "mu", some 0, some 1⟩
        ⟨2, "sigma", "sigma", some 0, none⟩).get_params.map Parameter.name :=
  ⟨(claim_C9 (.normal ⟨0, "x", "x"⟩ ⟨1, "mu", "mu", none, none⟩
      ⟨2, "sigma", "sigma", none, none⟩)
      (.normal ⟨0, "x", "x"⟩ ⟨1, "mu", "mu", some 0, some 1⟩
      ⟨2, "sigma", "sigma", some 0, none⟩)
      ⟨rfl, ⟨rfl, rfl, rfl⟩, ⟨rfl, rfl, rfl⟩⟩).1,
    (claim_C9 (.normal ⟨0, "x", "x"⟩ ⟨1, "mu", "mu", none, none⟩
      ⟨2, "sigma", "sigma", none, none⟩)
      (.normal ⟨0, "x", "x"⟩ ⟨1, "mu", "mu", some 0, some 1⟩
      ⟨2, "sigma", "sigma", some 0, none⟩)
      ⟨rfl, ⟨rfl, rfl, rfl⟩, ⟨rfl, rfl, rfl⟩⟩).2.1,
    (claim_C9 (.normal ⟨0, "x", "x"⟩ ⟨1, "mu", "mu", none, none⟩
      ⟨2, "sigma", "sigma", none, none⟩)
      (.normal ⟨0, "x", "x"⟩ ⟨1, "mu", "mu", some 0, some 1⟩
      ⟨2, "sigma", "sigma", some 0, none⟩)
      ⟨rfl, ⟨rfl, rfl, rfl⟩, ⟨rfl, rfl, rfl⟩⟩).2.2.1⟩

/-! ## The compiled objective and gradient: positional argument binding -/

theorem find_zip_nodup {β : Type} :
    ∀ (args : List Nat) (vals : List β) (k : ℕ) (hk : k < args.length)
      (hnd : args.Nodup) (hlen : vals.length = args.length),
      (args.zip vals).find? (fun av => av.1 == args.get ⟨k, hk⟩)
        = some (args.get ⟨k, hk⟩, vals.get ⟨k, by omega⟩) := by
  intro args
  induction args with
  | nil => intro vals k hk; exact absurd hk (by simp)
  | cons a args ih =>
      intro vals k hk hnd hlen
      cases vals with
      | nil => simp at hlen
      | cons b vals =>
          cases k with
          | zero =>
              rw [List.zip_cons_cons, List.find?_cons_of_pos _ (by simp)]
              rfl
          | succ k =>
              have hk' : k < args.length := by simpa using hk
              have hlen' : vals.length = args.length := by simpa using hlen
              have hnd' : args.Nodup := (List.nodup_cons.mp hnd).2
              have hne : a ≠ args.get ⟨k, hk'⟩ := by
                intro hcontra
                have hmem : args.get ⟨k, hk'⟩ ∈ args := List.get_mem args k hk'
                rw [← hcontra] at hmem
                exact (List.nodup_cons.mp hnd).1 hmem
              rw [List.zip_cons_cons,
                List.find?_cons_of_neg _ (fun hcontra => hne (by simpa using hcontra))]
              exact ih vals k hk' hnd' hlen'

theorem bindEnv_at {n : ℕ} (args : List Nat) (vals : List (TArg n)) (k : ℕ)
    (hk : k < args.length) (hnd : args.Nodup) (hlen : vals.length = args.length) :
    bindEnv args vals (args.get ⟨k, hk⟩) = vals.get ⟨k, by omega⟩ := by
  unfold bindEnv
  rw [find_zip_nodup args vals k hk hnd hlen]

theorem compile_args_length (m : Model) :
    m.compile_args.length = m.get_vars.length + m.get_params.length := by
  simp [Model.compile_args]

theorem compile_args_get_var (m : Model) (k : ℕ) (hk : k < m.get_vars.length)
    (hk2 : k < m.compile_args.length) :
    m.compile_args.get ⟨k, hk2⟩ = (m.get_vars.get ⟨k, hk⟩).id := by
  show (m.get_vars.map Variable.id ++ m.get_params.map Parameter.id).get ⟨k, _⟩ = _
  rw [List.get_eq_getElem, List.getElem_append_left (by simpa using hk),
    List.getElem_map, List.get_eq_getElem]

theorem compile_args_get_par (m : Model) (k : ℕ) (hk : k < m.get_params.length)
    (hk2 : m.get_vars.length + k < m.compile_args.length) :
    m.compile_args.get ⟨m.get_vars.length + k, hk2⟩ = (m.get_params.get ⟨k, hk⟩).id := by
  show (m.get_vars.map Variable.id ++ m.get_params.map Parameter.id).get ⟨_, _⟩ = _
  rw [List.get_eq_getElem, List.getElem_append_right (by simp)]
  simp [List.getElem_map, List.get_eq_getElem]

theorem vals_get_var {n : ℕ} (xs : List (Fin n → ℝ)) (ps : List ℝ) (k : ℕ)
    (hk : k < xs.length)
    (h2 : k < (xs.map TArg.vec ++ ps.map TArg.scl).length) :
    (xs.map TArg.vec ++ ps.map TArg.scl).get ⟨k, h2⟩ = TArg.vec (xs.get ⟨k, hk⟩) := by
  rw [List.get_eq_getElem, List.getElem_append_left (by simpa using hk),
    List.getElem_map, List.get_eq_getElem]

theorem vals_get_par {n : ℕ} (xs : List (Fin n → ℝ)) (ps : List ℝ) (k : ℕ)
    (hk : k < ps.length)
    (h2 : xs.length + k < (xs.map TArg.vec ++ ps.map TArg.scl).length) :
    (xs.map TArg.vec ++ ps.map TArg.scl).get ⟨xs.length + k, h2⟩
      = TArg.scl (ps.get ⟨k, hk⟩) := by
  rw [List.get_eq_getElem, List.getElem_append_right (by simp)]
  simp [List.getElem_map, List.get_eq_getElem]

theorem vals_get_par' {n : ℕ} (xs : List (Fin n → ℝ)) (ps : List ℝ) (i k : ℕ)
    (hi : i = xs.length + k) (hk : k < ps.length)
    (h2 : i < (xs.map TArg.vec ++ ps.map TArg.scl).length) :
    (xs.map TArg.vec ++ ps.map TArg.scl).get ⟨i, h2⟩ = TArg.scl (ps.get ⟨k, hk⟩) := by
  subst hi
  exact vals_get_par xs ps k hk h2

theorem model_get_vars_sub (m : Model) : ∀ v ∈ m.get_vars, v ∈ m.toTree.all_vars := by
  intro v hv
  have hv' : v ∈ dedupKey Variable.id m.toTree.all_vars := by
    rw [← m.toTree.get_vars_eq_dedup]
    exact hv
  exact dedupKey_subset _ _ _ hv'

theorem model_get_params_sub (m : Model) : ∀ p ∈ m.get_params, p ∈ m.toTree.all_params := by
  intro p hp
  have hp' : p ∈ dedupKey Parameter.id m.toTree.all_params := by
    rw [← m.toTree.get_params_eq_dedup]
    exact hp
  exact dedupKey_subset _ _ _ hp'

theorem model_get_vars_ids_nodup (m : Model) : (m.get_vars.map Variable.id).Nodup := by
  show (m.toTree.get_vars.map Variable.id).Nodup
  rw [m.toTree.get_vars_eq_dedup]
  exact dedupKey_nodup _ _

theorem model_get_params_ids_nodup (m : Model) : (m.get_params.map Parameter.id).Nodup := by
  show (m.toTree.get_params.map Parameter.id).Nodup
  rw [m.toTree.get_params_eq_dedup]
  exact dedupKey_nodup _ _

theorem compile_args_nodup (m : Model)
    (hdisj : ∀ v ∈ m.toTree.all_vars, ∀ p ∈ m.toTree.all_params, v.id ≠ p.id) :
    m.compile_args.Nodup := by
  show (m.get_vars.map Variable.id ++ m.get_params.map Parameter.id).Nodup
  refine List.Nodup.append (model_get_vars_ids_nodup m) (model_get_params_ids_nodup m) ?_
  rw [List.disjoint_left]
  intro a ha hb
  obtain ⟨v, hv, hvid⟩ := List.mem_map.mp ha
  obtain ⟨p, hp, hpid⟩ := List.mem_map.mp hb
  exact hdisj v (model_get_vars_sub m v hv) p (model_get_params_sub m p hp)
    (by rw [hvid, hpid])

theorem leaf_ids_cover : ∀ (m : Model), m.wf →
    ∀ j ∈ m.leaf_ids, j ∈ m.toTree.all_vars.map Variable.id
      ∨ j ∈ m.toTree.all_params.map Parameter.id := by
  intro m
  induction m with
  | normal x mu sigma =>
      intro hw j hj
      have hw' : mu.name ≠ sigma.name := hw
      have hparams : (Model.normal x mu sigma).toTree.all_params = [mu, sigma] := by
        show (addParam (addParam [] mu none none) sigma (some 0) none)
            ++ DForest.all_params_f .nil = [mu, sigma]
        simp [addParam, odInsert, hw', DForest.all_params_f]
      simp only [Model.leaf_ids, List.mem_cons, List.not_mem_nil, or_false] at hj
      rcases hj with hj | hj | hj
      · left
        show j ∈ ([x] ++ DForest.all_vars_f .nil).map Variable.id
        simp [DForest.all_vars_f, hj]
      · right
        rw [hparams]
        simp [hj]
      · right
        rw [hparams]
        simp [hj]
  | uniform x lower upper =>
      intro hw j hj
      have hw' : lower.name ≠ upper.name := hw
      have hparams : (Model.uniform x lower upper).toTree.all_params = [lower, upper] := by
        show (addParam (addParam [] lower none none) upper none none)
            ++ DForest.all_params_f .nil = [lower, upper]
        simp [addParam, odInsert, hw', DForest.all_params_f]
      simp only [Model.leaf_ids, List.mem_cons, List.not_mem_nil, or_false] at hj
      rcases hj with hj | hj | hj
      · left
        show j ∈ ([x] ++ DForest.all_vars_f .nil).map Variable.id
        simp [DForest.all_vars_f, hj]
      · right
        rw [hparams]
        simp [hj]
      · right
        rw [hparams]
        simp [hj]
  | mix2 frac d1 d2 ih1 ih2 =>
      intro hw j hj
      obtain ⟨hw1, hw2⟩ := hw
      have hvars : (Model.mix2 frac d1 d2).toTree.all_vars
          = d1.toTree.all_vars ++ d2.toTree.all_vars := by
        show [] ++ DForest.all_vars_f (.cons d1.toTree (.cons d2.toTree .nil))
          = d1.toTree.all_vars ++ d2.toTree.all_vars
        simp [DForest.all_vars_f, DTree.all_vars]
      have hparams : (Model.mix2 frac d1 d2).toTree.all_params
          = frac :: (d1.toTree.all_params ++ d2.toTree.all_params) := by
        show (addParam [] frac none none)
            ++ DForest.all_params_f (.cons d1.toTree (.cons d2.toTree .nil))
          = frac :: (d1.toTree.all_params ++ d2.toTree.all_params)
        simp [addParam, odInsert, DForest.all_params_f, DTree.all_params]
      simp only [Model.leaf_ids, List.mem_cons, List.mem_append] at hj
      rcases hj with hj | hj | hj
      · right
        rw [hparams]
        simp [hj]
      · rcases ih1 hw1 j hj with hc | hc
        · left
          rw [hvars]
          simp only [List.map_append, List.mem_append]
          exact Or.inl hc
        · right
          rw [hparams]
          simp only [List.map_cons, List.map_append, List.mem_cons, List.mem_append]
          exact Or.inr (Or.inl hc)
      · rcases ih2 hw2 j hj with hc | hc
        · left
          rw [hvars]
          simp only [List.map_append, List.mem_append]
          exact Or.inr hc
        · right
          rw [hparams]
          simp only [List.map_cons, List.map_append, List.mem_cons, List.mem_append]
          exact Or.inr (Or.inr hc)

theorem logp_congr : ∀ (m : Model) (e₁ e₂ : Nat → ℝ),
    (∀ j ∈ m.leaf_ids, e₁ j = e₂ j) → m.logp e₁ = m.logp e₂ := by
  intro m
  induction m with
  | normal x mu sigma =>
      intro e₁ e₂ h
      simp only [Model.logp]
      rw [h x.id (by simp [Model.leaf_ids]), h mu.id (by simp [Model.leaf_ids]),
        h sigma.id (by simp [Model.leaf_ids])]
  | uniform x lower upper =>
      intro e₁ e₂ h
      simp only [Model.logp]
      rw [h lower.id (by simp [Model.leaf_ids]), h upper.id (by simp [Model.leaf_ids])]
  | mix2 frac d1 d2 ih1 ih2 =>
      intro e₁ e₂ h
      simp only [Model.logp]
      rw [h frac.id (by simp [Model.leaf_ids]),
        ih1 e₁ e₂ (fun j hj => h j (by simp [Model.leaf_ids, hj])),
        ih2 e₁ e₂ (fun j hj => h j (by simp [Model.leaf_ids, hj]))]

theorem neg_sum_logp_congr {n : ℕ} (m : Model) (e₁ e₂ : Nat → TArg n)
    (h : ∀ j ∈ m.leaf_ids, e₁ j = e₂ j) : m.neg_sum_logp n e₁ = m.neg_sum_logp n e₂ := by
  unfold Model.neg_sum_logp
  congr 2
  apply Finset.sum_congr rfl
  intro i _
  congr 1
  apply logp_congr
  intro j hj
  unfold rowEnv
  rw [h j hj]

theorem bind_env_agrees {n : ℕ} (m : Model) (xs : List (Fin n → ℝ)) (ps : List ℝ)
    (hw : m.wf)
    (hdisj : ∀ v ∈ m.toTree.all_vars, ∀ p ∈ m.toTree.all_params, v.id ≠ p.id)
    (hx : xs.length = m.get_vars.length)
    (hp : ps.length = m.get_params.length)
    (e : Nat → TArg n)
    (he1 : ∀ (k : ℕ) (hk : k < m.get_vars.length),
      e ((m.get_vars.get ⟨k, hk⟩).id) = TArg.vec (xs.getD k (fun _ => 0)))
    (he2 : ∀ (k : ℕ) (hk : k < m.get_params.length),
      e ((m.get_params.get ⟨k, hk⟩).id) = TArg.scl (ps.getD k 0)) :
    ∀ j ∈ m.leaf_ids,
      bindEnv m.compile_args (xs.map TArg.vec ++ ps.map TArg.scl) j = e j := by
  have hnd := compile_args_nodup m hdisj
  have hlen : (xs.map TArg.vec ++ ps.map TArg.scl).length = m.compile_args.length := by
    rw [compile_args_length]
    simp [hx, hp]
  intro j hj
  rcases leaf_ids_cover m hw j hj with hvar | hpar
  · obtain ⟨v, hv, hvid⟩ := List.mem_map.mp hvar
    obtain ⟨w, hw0, hwid⟩ := dedupKey_covers Variable.id m.toTree.all_vars v hv
    rw [← m.toTree.get_vars_eq_dedup] at hw0
    have hw' : w ∈ m.get_vars := hw0
    obtain ⟨⟨k, hk⟩, hkw⟩ := List.mem_iff_get.mp hw'
    have hkx : k < xs.length := by omega
    have hk2 : k < m.compile_args.length := by rw [compile_args_length]; omega
    have hj' : (m.get_vars.get ⟨k, hk⟩).id = j := by rw [hkw, hwid, hvid]
    have hbind := bindEnv_at m.compile_args (xs.map TArg.vec ++ ps.map TArg.scl) k hk2
      hnd hlen
    rw [compile_args_get_var m k hk hk2] at hbind
    rw [hj'] at hbind
    rw [hbind, vals_get_var xs ps k hkx]
    rw [← hj', he1 k hk]
    congr 1
    rw [List.getD_eq_getElem _ _ hkx, List.get_eq_getElem]
  · obtain ⟨p, hpm, hpid⟩ := List.mem_map.mp hpar
    obtain ⟨w, hw0, hwid⟩ := dedupKey_covers Parameter.id m.toTree.all_params p hpm
    rw [← m.toTree.get_params_eq_dedup] at hw0
    have hw' : w ∈ m.get_params := hw0
    obtain ⟨⟨k, hk⟩, hkw⟩ := List.mem_iff_get.mp hw'
    have hkp : k < ps.length := by omega
    have hk2 : m.get_vars.length + k < m.compile_args.length := by
      rw [compile_args_length]; omega
    have hj' : (m.get_params.get ⟨k, hk⟩).id = j := by rw [hkw, hwid, hpid]
    have hbind := bindEnv_at m.compile_args (xs.map TArg.vec ++ ps.map TArg.scl)
      (m.get_vars.length + k) hk2 hnd hlen
    rw [compile_args_get_par m k hk hk2] at hbind
    rw [hj'] at hbind
    rw [hbind, vals_get_par' xs ps (m.get_vars.length + k) k (by omega) hkp,
      ← hj', he2 k hk]
    congr 1
    rw [List.getD_eq_getElem _ _ hkp, List.get_eq_getElem]

/-- C5: under the well-formedness the compiler assumes (distinct parameter
names within one node, variable and parameter leaves with distinct
identities), the callable produced by `logp_compiled()` takes all variable
values followed by all parameter values — positionally bound in
`get_vars()`/`get_params()` order, so its value equals the negative of the
sum over dataset rows of the root's `logp()` under any environment that
assigns the `k`-th collected variable the `k`-th vector argument and the
`k`-th collected parameter the `k`-th scalar argument; `grad_compiled()`
takes the same argument list and returns one entry per collected parameter,
the derivative of the negated summed log-likelihood in that parameter's
coordinate alone, evaluated at that parameter's argument, with all variable
arguments held fixed. -/
theorem claim_C5 {n : ℕ} (m : Model) (xs : List (Fin n → ℝ)) (ps : List ℝ)
    (hw : m.wf)
    (hdisj : ∀ v ∈ m.toTree.all_vars, ∀ p ∈ m.toTree.all_params, v.id ≠ p.id)
    (hx : xs.length = m.get_vars.length)
    (hp : ps.length = m.get_params.length)
    (e : Nat → TArg n)
    (he1 : ∀ (k : ℕ) (hk : k < m.get_vars.length),
      e ((m.get_vars.get ⟨k, hk⟩).id) = TArg.vec (xs.getD k (fun _ => 0)))
    (he2 : ∀ (k : ℕ) (hk : k < m.get_params.length),
      e ((m.get_params.get ⟨k, hk⟩).id) = TArg.scl (ps.getD k 0)) :
    m.logp_compiled n (xs.map TArg.vec ++ ps.map TArg.scl)
        = - ∑ i : Fin n, (m.logp (rowEnv e i)).toEReal
    ∧ (m.grad_compiled n (xs.map TArg.vec ++ ps.map TArg.scl)).length
        = m.get_params.length
    ∧ ∀ (k : ℕ) (hk : k < m.get_params.length),
        (m.grad_compiled n (xs.map TArg.vec ++ ps.map TArg.scl)).getD k 0
          = deriv (fun t : ℝ => m.neg_sum_logp n
              (Function.update e ((m.get_params.get ⟨k, hk⟩).id) (TArg.scl t)))
            (ps.getD k 0) := by
  have hnd := compile_args_nodup m hdisj
  have hlen : (xs.map TArg.vec ++ ps.map TArg.scl).length = m.compile_args.length := by
    rw [compile_args_length]
    simp [hx, hp]
  have hagree := bind_env_agrees m xs ps hw hdisj hx hp e he1 he2
  refine ⟨?_, ?_, ?_⟩
  · unfold Model.logp_compiled
    congr 1
    apply Finset.sum_congr rfl
    intro i _
    congr 1
    apply logp_congr
    intro j hj
    unfold rowEnv
    rw [hagree j hj]
  · simp [Model.grad_compiled]
  · intro k hk
    have hkp : k < ps.length := by omega
    have hkm : k < (m.get_params.map Parameter.id).length := by simpa using hk
    unfold Model.grad_compiled
    have hglen : k < ((m.get_params.map Parameter.id).map (fun pid =>
        deriv (fun t : ℝ => m.neg_sum_logp n
          (Function.update (bindEnv m.compile_args (xs.map TArg.vec ++ ps.map TArg.scl))
            pid (TArg.scl t)))
          ((bindEnv m.compile_args (xs.map TArg.vec ++ ps.map TArg.scl) pid).sclVal))).length := by
      simpa using hk
    rw [List.getD_eq_getElem _ _ hglen, List.getElem_map, List.getElem_map]
    have hpid : (m.get_params.get ⟨k, hk⟩).id = m.get_params[k].id := rfl
    have hk2 : m.get_vars.length + k < m.compile_args.length := by
      rw [compile_args_length]; omega
    have hbind := bindEnv_at m.compile_args (xs.map TArg.vec ++ ps.map TArg.scl)
      (m.get_vars.length + k) hk2 hnd hlen
    rw [compile_args_get_par m k hk hk2] at hbind
    have hvals : (xs.map TArg.vec ++ ps.map TArg.scl).get
        ⟨m.get_vars.length + k, by omega⟩ = TArg.scl (ps.get ⟨k, hkp⟩) :=
      vals_get_par' xs ps (m.get_vars.length + k) k (by omega) hkp (by omega)
    rw [← hbind] at hvals
    have hbase : (bindEnv m.compile_args (xs.map TArg.vec ++ ps.map TArg.scl)
        (m.get_params[k].id)).sclVal = ps.getD k 0 := by
      rw [← hpid, hvals]
      show ps.get ⟨k, hkp⟩ = ps.getD k 0
      rw [List.getD_eq_getElem _ _ hkp, List.get_eq_getElem]
    have hfun : (fun t : ℝ => m.neg_sum_logp n
        (Function.update (bindEnv m.compile_args (xs.map TArg.vec ++ ps.map TArg.scl))
          (m.get_params[k].id) (TArg.scl t)))
        = fun t : ℝ => m.neg_sum_logp n
          (Function.update e ((m.get_params.get ⟨k, hk⟩).id) (TArg.scl t)) := by
      funext t
      apply neg_sum_logp_congr
      intro j hj
      rw [← hpid]
      by_cases hjp : j = (m.get_params.get ⟨k, hk⟩).id
      · subst hjp
        rw [Function.update_same, Function.update_same]
      · rw [Function.update_noteq hjp, Function.update_noteq hjp]
        exact hagree j hj
    rw [hfun, hbase]

/-- Witness for C5: a `Normal(x, mu, sigma)` model called with the dataset
vector for `x` followed by the scalars for `mu` and `sigma`; the gradient
callable returns one entry per collected parameter. -/
theorem claim_C5_witness :
    ((Model.normal ⟨0, "x", "x"⟩ ⟨1, "mu", "mu", none, none⟩
        ⟨2, "sigma", "sigma", none, none⟩).grad_compiled 1
        (([fun _ => 0] : List (Fin 1 → ℝ)).map TArg.vec
          ++ ([0.5, 2] : List ℝ).map TArg.scl)).length
      = (Model.normal ⟨0, "x", "x"⟩ ⟨1, "mu", "mu", none, none⟩
          ⟨2, "sigma", "sigma", none, none⟩).get_params.length :=
  (claim_C5
    (Model.normal ⟨0, "x", "x"⟩ ⟨1, "mu", "mu", none, none⟩
      ⟨2, "sigma", "sigma", none, none⟩)
    ([fun _ => 0] : List (Fin 1 → ℝ)) ([0.5, 2] : List ℝ)
    (show ("mu" : String) ≠ "sigma" by decide)
    (by
      intro v hv p hp
      rw [show (Model.normal ⟨0, "x", "x"⟩ ⟨1, "mu", "mu", none, none⟩
            ⟨2, "sigma", "sigma", none, none⟩).toTree.all_vars
          = [⟨0, "x", "x"⟩] from rfl] at hv
      rw [show (Model.normal ⟨0, "x", "x"⟩ ⟨1, "mu", "mu", none, none⟩
            ⟨2, "sigma", "sigma", none, none⟩).toTree.all_params
          = [⟨1, "mu", "mu", none, none⟩, ⟨2, "sigma", "sigma", none, none⟩] from rfl] at hp
      have hv' := List.mem_singleton.mp hv
      subst hv'
      rcases List.mem_cons.mp hp with hp1 | hp2
      · subst hp1; decide
      · have hp' := List.mem_singleton.mp hp2
        subst hp'; decide)
    rfl rfl
    (fun j => if j = 0 then TArg.vec (fun _ => 0)
      else if j = 1 then TArg.scl 0.5 else TArg.scl 2)
    (by
      intro k hk
      have hk1 : k < 1 := hk
      cases k with
      | zero => rfl
      | succ k' => omega)
    (by
      intro k hk
      have hk2 : k < 2 := hk
      cases k with
      | zero => rfl
      | succ k' =>
          cases k' with
          | zero => rfl
          | succ k'' => omega)).2.1

end MLE
